import Mathlib

/-!
Shallow embedding of the zpack code generator (zpack.go).

Conventions:
* Go byte slices are `List Nat`, each element intended `< 256`.
* Go strings that are iterated rune-wise (`Varname`) are `List Char`;
  paths and identifiers are `List Char` as well, compared by code point,
  which for valid UTF-8 agrees with Go's byte-wise string order.
* The external zlib library (`compress/zlib`) is modelled by a
  `ZlibModel` parameter: a compression function together with an
  optional-valued decompressor, since its implementation is not part of
  this repository.
* Go's `unicode.IsLetter` and `unicode.IsDigit` are modelled as
  predicate parameters `iL iD : Char → Bool`, since their Unicode tables
  are external to this repository.
* `gofmt` (invoked by `Format`) is an external collaborator and is
  modelled as a parameter `gofmt : Bytes → Except Str Bytes`.
* I/O failures are modelled by `Option`/`Except`: a file whose content
  is `none` is unreadable, a path absent from the `Fs` association list
  fails `os.Stat`.
-/

abbrev Bytes := List Nat

abbrev Str := List Char

/-- Code points of a Lean string literal, used to spell identifiers/paths. -/
def chs (s : String) : Str := s.data

/-- Byte/code-point image of a (7-bit) template string, as written by
`fp.Write`/`fmt.Fprintf` in the source. -/
def strBytes (s : String) : Bytes := s.data.map Char.toNat

/-- Code points of a `Str`, as written to the output sink. -/
def chBytes (s : Str) : Bytes := s.map Char.toNat

/-- Standard base-64 alphabet of `encoding/base64.StdEncoding`
(value 0–63 to ASCII code). -/
def b64Char (n : Nat) : Nat :=
  if n < 26 then 65 + n
  else if n < 52 then 97 + (n - 26)
  else if n < 62 then 48 + (n - 52)
  else if n = 62 then 43 else 47

/-- Inverse alphabet lookup of the standard base-64 alphabet (ASCII code to
6-bit value); `none` for a byte outside the alphabet (for instance the
padding byte 61, i.e. the equals sign). -/
def b64Val (c : Nat) : Option Nat :=
  if 65 ≤ c ∧ c ≤ 90 then some (c - 65)
  else if 97 ≤ c ∧ c ≤ 122 then some (c - 97 + 26)
  else if 48 ≤ c ∧ c ≤ 57 then some (c - 48 + 52)
  else if c = 43 then some 62
  else if c = 47 then some 63
  else none

/-- Model of `base64.StdEncoding.EncodeToString`: encode three input bytes
into four alphabet bytes; a final group of one or two bytes is padded with
the byte 61 (the equals sign), exactly as `StdEncoding` (which pads). -/
def b64Encode : Bytes → Bytes
  | b0 :: b1 :: b2 :: rest =>
    b64Char ((b0 * 65536 + b1 * 256 + b2) / 262144)
      :: b64Char ((b0 * 65536 + b1 * 256 + b2) / 4096 % 64)
      :: b64Char ((b0 * 65536 + b1 * 256 + b2) / 64 % 64)
      :: b64Char ((b0 * 65536 + b1 * 256 + b2) % 64)
      :: b64Encode rest
  | [b0, b1] =>
    [b64Char ((b0 * 65536 + b1 * 256) / 262144),
     b64Char ((b0 * 65536 + b1 * 256) / 4096 % 64),
     b64Char ((b0 * 65536 + b1 * 256) / 64 % 64), 61]
  | [b0] =>
    [b64Char ((b0 * 65536) / 262144), b64Char ((b0 * 65536) / 4096 % 64), 61, 61]
  | [] => []

/-- Model of `base64.StdEncoding.DecodeString` as run by the generated
decode expressions: four alphabet bytes yield three output bytes, a
final `xx==` group yields one byte and a final `xxx=` group two bytes;
any other shape is a decode error (`none`). -/
def b64Decode : Bytes → Option Bytes
  | [] => some []
  | c0 :: c1 :: c2 :: c3 :: rest =>
    match b64Val c0, b64Val c1 with
    | some s0, some s1 =>
      if c2 = 61 then
        if c3 = 61 ∧ rest = [] then some [(s0 * 262144 + s1 * 4096) / 65536] else none
      else
        match b64Val c2 with
        | some s2 =>
          if c3 = 61 then
            if rest = [] then
              some [(s0 * 262144 + s1 * 4096 + s2 * 64) / 65536,
                    (s0 * 262144 + s1 * 4096 + s2 * 64) / 256 % 256]
            else none
          else
            match b64Val c3, b64Decode rest with
            | some s3, some r =>
              some ((s0 * 262144 + s1 * 4096 + s2 * 64 + s3) / 65536
                :: (s0 * 262144 + s1 * 4096 + s2 * 64 + s3) / 256 % 256
                :: (s0 * 262144 + s1 * 4096 + s2 * 64 + s3) % 256 :: r)
            | _, _ => none
        | none => none
    | _, _ => none
  | _ => none

/-- Replacement text for a backtick produced by
`bytes.Replace(s, []byte("LQ"), []byte("LQ + \"LQ\" + LQ"), -1)` in `enc`
(with LQ standing for the backtick byte 96): the eleven bytes of
a backtick, space, plus, space, quote, backtick, quote, space, plus,
space, backtick. -/
def escSeq : Bytes := [96, 32, 43, 32, 34, 96, 34, 32, 43, 32, 96]

/-- Model of the `bytes.Replace` call in `enc`: every backtick byte (96)
of the literal content is replaced by `escSeq`. -/
def escTick : Bytes → Bytes
  | [] => []
  | b :: rest => if b = 96 then escSeq ++ escTick rest else b :: escTick rest

/-- Semantics of evaluating the emitted raw-string expression, the Go
evaluation of the Literal form: a maximal raw-string segment runs up to
a backtick, each interpolated `+ "LQ" +` concatenation (the `escSeq`
shape) contributes one backtick byte back, and — as the Go language
specification prescribes for raw string literals — every
carriage-return byte (13) inside a raw-string segment is discarded from
the value. -/
def unescTick : Bytes → Bytes
  | [] => []
  | b :: rest =>
    if b = 96 ∧ rest.take 10 = [32, 43, 32, 34, 96, 34, 32, 43, 32, 96]
    then 96 :: unescTick (rest.drop 10)
    else if b = 13 then unescTick rest
    else b :: unescTick rest
termination_by l => l.length
decreasing_by
  · simp only [List.length_cons, List.length_drop]; omega
  · simp only [List.length_cons]; omega
  · simp only [List.length_cons]; omega

/-- Helper of `utf8Valid`: scan expecting `k` further continuation bytes,
the next one bounded by `lo..hi` and any after that by `128..191`; in the
start state the first byte of a sequence selects the expected length and
the accept range of its first continuation byte, following Go's table in
`unicode/utf8` (surrogates and overlong encodings rejected). -/
def utf8Go : Bytes → Nat → Nat → Nat → Bool
  | [], k, _, _ => k = 0
  | b :: rest, 0, _, _ =>
    if b < 128 then utf8Go rest 0 0 0
    else if 194 ≤ b && b ≤ 223 then utf8Go rest 1 128 191
    else if b = 224 then utf8Go rest 2 160 191
    else if 225 ≤ b && b ≤ 236 then utf8Go rest 2 128 191
    else if b = 237 then utf8Go rest 2 128 159
    else if 238 ≤ b && b ≤ 239 then utf8Go rest 2 128 191
    else if b = 240 then utf8Go rest 3 144 191
    else if 241 ≤ b && b ≤ 243 then utf8Go rest 3 128 191
    else if b = 244 then utf8Go rest 3 128 143
    else false
  | b :: rest, k + 1, lo, hi => lo ≤ b && b ≤ hi && utf8Go rest k 128 191

/-- Model of `unicode/utf8.Valid`: the byte sequence is a well-formed
UTF-8 encoding. -/
def utf8Valid (s : Bytes) : Bool := utf8Go s 0 0 0

/-- Model of the external `compress/zlib` library used by `enc` and by the
generated decompression expressions. -/
structure ZlibModel where
  compress : Bytes → Bytes
  decompress : Bytes → Option Bytes

/-- Trivial zlib model used to instantiate witnesses. -/
def zlibId : ZlibModel := ⟨fun s => s, fun s => some s⟩

/-- The three generated expression shapes of `enc`, carrying exactly the
text interpolated into the respective format string. -/
inductive GoExpr where
  | literal (escaped : Bytes)
  | encoded (payload : Bytes)
  | compressedEncoded (payload : Bytes)

/-- The encoding strategies of the specification. -/
inductive EncodingKind where
  | literal
  | encoded
  | compressedEncoded
deriving DecidableEq

/-- Encoding kind realised by a generated expression. -/
def GoExpr.kind : GoExpr → EncodingKind
  | .literal _ => .literal
  | .encoded _ => .encoded
  | .compressedEncoded _ => .compressedEncoded

/-- Model of `enc` (zpack.go lines 202–241): content with no NUL byte that
is valid UTF-8 becomes a raw-string literal with backticks escaped;
otherwise content longer than `1024*100` bytes is compressed and
base-64 encoded, and anything else is base-64 encoded directly.
`bytes.IndexByte(s, 0) == -1` is `s.contains 0 = false`. -/
def enc (z : ZlibModel) (s : Bytes) : GoExpr :=
  if s.contains 0 = false ∧ utf8Valid s = true then .literal (escTick s)
  else if s.length > 1024 * 100 then .compressedEncoded (b64Encode (z.compress s))
  else .encoded (b64Encode s)

/-- Evaluation, by the generated program, of the decode expression
produced for each `GoExpr`: the Literal raw string evaluates through the
split-and-concatenate escape; the Encoded form runs base-64 decoding
(a failure panics, modelled `none`); the CompressedEncoded form
decodes then decompresses through the zlib model. -/
def evalExpr (z : ZlibModel) : GoExpr → Option Bytes
  | .literal e => some (unescTick e)
  | .encoded p => b64Decode p
  | .compressedEncoded p => (b64Decode p).bind z.decompress

/-- Text of the generated expression, exactly as interpolated by the
three `fmt.Sprintf` calls of `enc`. -/
def encText : GoExpr → Bytes
  | .literal e => strBytes "[]byte(`" ++ e ++ strBytes "`)"
  | .encoded p =>
    strBytes "func() []byte \x7b\n\t\ts, err := base64.StdEncoding.DecodeString(\""
      ++ p
      ++ strBytes "\")\n\t\tif err != nil \x7b\n\t\t\tpanic(err)\n\t\t\x7d\n\t\treturn s\n\t\x7d()"
  | .compressedEncoded p =>
    strBytes "func() []byte \x7b\n\t\t\tz, err := base64.StdEncoding.DecodeString(\""
      ++ p
      ++ strBytes ("\")\n\t\t\tif err != nil \x7b\n\t\t\t\tpanic(err)\n\t\t\t\x7d\n"
        ++ "\t\t\tr, err := zlib.NewReader(bytes.NewReader(z))\n\t\t\tif err != nil \x7b\n"
        ++ "\t\t\t\tpanic(err)\n\t\t\t\x7d\n\n\t\t\ts, err := ioutil.ReadAll(r)\n"
        ++ "\t\t\tif err != nil \x7b\n\t\t\t\tpanic(err)\n\t\t\t\x7d\n\t\t\tr.Close()\n"
        ++ "\t\t\treturn s\n\t\t\x7d()")

/-- Scan pass of `Varname` (zpack.go lines 174–200): the loop body over the
runes of the input, with the `replaced` flag threaded through. A valid
identifier rune (letter, digit or underscore) is copied and resets the
flag; the first rune of an invalid run appends one underscore. -/
def varnameScan (iL iD : Char → Bool) : List Char → Bool → List Char
  | [], _ => []
  | c :: rest, replaced =>
    if iL c || iD c || c == '_' then c :: varnameScan iL iD rest false
    else if !replaced then '_' :: varnameScan iL iD rest true
    else varnameScan iL iD rest replaced

/-- Model of `Varname`: empty input returns empty; otherwise the scan pass
runs with the flag initially false, and if the first accumulated rune is
neither an underscore nor a letter, the placeholder letter `v` is
prepended. The Go code indexes `n[0]`, which panics when the scan result
is empty; that out-of-bounds access is modelled by `none`. -/
def Varname (iL iD : Char → Bool) (s : List Char) : Option (List Char) :=
  if s = [] then some []
  else
    match varnameScan iL iD s false with
    | [] => none
    | c :: cs =>
      if c ≠ '_' ∧ iL c = false then some ('v' :: c :: cs) else some (c :: cs)

/-- Specification-side description of the scan pass, written the way the
spec phrases it: valid runes are copied verbatim and every maximal run
of invalid runes collapses to a single underscore. -/
def collapseInvalid (valid : Char → Bool) : List Char → List Char
  | [] => []
  | c :: rest =>
    if valid c then c :: collapseInvalid valid rest
    else '_' :: collapseInvalid valid (rest.dropWhile (fun d => !valid d))
termination_by l => l.length
decreasing_by
  · simp only [List.length_cons]; omega
  · simp only [List.length_cons]
    exact Nat.lt_succ_of_le (List.Sublist.length_le (List.dropWhile_sublist _))

/-- Nodes of a file-system snapshot: a regular file with its content
(`none` meaning unreadable) or a directory with named entries, in
unspecified on-disk order. -/
inductive FsNode where
  | file : Option Bytes → FsNode
  | dir : List (Str × FsNode) → FsNode

/-- File-system snapshot: association of path to node, as consulted by
`os.Stat`. -/
abbrev Fs := List (Str × FsNode)

/-- Byte-wise (code-point-wise) string order of Go's `sort.Strings` and of
directory-name sorting inside `filepath.Walk`. -/
def strLe : Str → Str → Bool
  | [], _ => true
  | _ :: _, [] => false
  | a :: as, b :: bs =>
    if a.toNat < b.toNat then true
    else if b.toNat < a.toNat then false
    else strLe as bs

/-- Model of the per-directory name sorting performed by `filepath.Walk`
(`readDirNames` sorts the listing before visiting). -/
def sortEntries (es : List (Str × FsNode)) : List (Str × FsNode) :=
  es.mergeSort (fun a b => strLe a.1 b.1)

/-- Trailing-slash trimming of `filepath.Join`/`filepath.Clean`, modelled
only as separator normalisation (dot-segment cleaning is irrelevant to
the claims here). -/
def dropTrailingSlash (p : Str) : Str :=
  if p ≠ [] ∧ p.getLast? = some '/' then p.dropLast else p

/-- Path join `filepath.Join(p, name)` as used by `filepath.Walk` when
descending into an entry. -/
def joinPath (p n : Str) : Str := dropTrailingSlash p ++ '/' :: n

/-- The ignore test of `Dir`: `strings.HasSuffix(path, ig)` for any member
of the ignore set. -/
def hasSuffixIn (ig : List Str) (p : Str) : Bool :=
  ig.any (fun s => s.isSuffixOf p)

/-- Model of `filepath.Walk` as used by `Dir`, on an explicit work list of
(path, node) pairs. Directories are not emitted, their entries are
visited in sorted name order; a file whose path matches an ignore suffix
is skipped before being read; reading an unreadable file aborts the walk
(`none`). The result is the ordered list of (path, content) pairs. -/
def walkW (ig : List Str) : List (Str × FsNode) → Option (List (Str × Bytes))
  | [] => some []
  | (p, .file none) :: rest =>
    if hasSuffixIn ig p then walkW ig rest else none
  | (p, .file (some b)) :: rest =>
    if hasSuffixIn ig p then walkW ig rest
    else (walkW ig rest).map (fun l => (p, b) :: l)
  | (p, .dir es) :: rest =>
    walkW ig ((sortEntries es).map (fun e => (joinPath p e.1, e.2)) ++ rest)
termination_by wl => (wl.map (fun e => sizeOf e.2)).sum
decreasing_by
  · simp
  · simp
  · simp
  · simp only [List.map_append, List.sum_append, List.map_cons, List.sum_cons]
    have h1 : ((((sortEntries es).map (fun e => (joinPath p e.1, e.2))).map
        (fun e => sizeOf e.2)).sum) = ((es.map (fun e => sizeOf e.2)).sum) := by
      rw [List.map_map]
      have hp : ((sortEntries es).map (fun e => sizeOf e.2)).sum
          = ((es.map (fun e => sizeOf e.2)).sum) :=
        List.Perm.sum_eq (List.Perm.map _ (List.mergeSort_perm es _))
      simpa using hp
    rw [h1]
    have h2 : ∀ l : List (Str × FsNode), ((l.map (fun e => sizeOf e.2)).sum) < sizeOf l := by
      intro l
      induction l with
      | nil => simp
      | cons x xs ihx =>
        cases x
        simp only [List.map_cons, List.sum_cons, List.cons.sizeOf_spec, Prod.mk.sizeOf_spec]
        omega
    have h3 := h2 es
    simp only [FsNode.dir.sizeOf_spec]
    omega

/-- All (path, content) pairs reachable from a work list, ignore set and
readability aside, in the same per-level sorted order as `walkW`; the
reference enumeration against which the walk is compared. -/
def filesW : List (Str × FsNode) → List (Str × Option Bytes)
  | [] => []
  | (p, .file c) :: rest => (p, c) :: filesW rest
  | (p, .dir es) :: rest =>
    filesW ((sortEntries es).map (fun e => (joinPath p e.1, e.2)) ++ rest)
termination_by wl => (wl.map (fun e => sizeOf e.2)).sum
decreasing_by
  · simp
  · simp only [List.map_append, List.sum_append, List.map_cons, List.sum_cons]
    have h1 : ((((sortEntries es).map (fun e => (joinPath p e.1, e.2))).map
        (fun e => sizeOf e.2)).sum) = ((es.map (fun e => sizeOf e.2)).sum) := by
      rw [List.map_map]
      have hp : ((sortEntries es).map (fun e => sizeOf e.2)).sum
          = ((es.map (fun e => sizeOf e.2)).sum) :=
        List.Perm.sum_eq (List.Perm.map _ (List.mergeSort_perm es _))
      simpa using hp
    rw [h1]
    have h2 : ∀ l : List (Str × FsNode), ((l.map (fun e => sizeOf e.2)).sum) < sizeOf l := by
      intro l
      induction l with
      | nil => simp
      | cons x xs ihx =>
        cases x
        simp only [List.map_cons, List.sum_cons, List.cons.sizeOf_spec, Prod.mk.sizeOf_spec]
        omega
    have h3 := h2 es
    simp only [FsNode.dir.sizeOf_spec]
    omega

/-- Model of `os.Stat`: resolve a path in the snapshot. -/
def statNode (fs : Fs) (p : Str) : Option FsNode := List.lookup p fs

/-- Model of `filepath.Base`: trailing slashes trimmed, then the final
path element (root and empty handled as in Go). -/
def baseName (p : Str) : Str :=
  if p = [] then ['.']
  else
    let q := p.reverse.dropWhile (fun c => c = '/')
    if q = [] then ['/'] else (q.takeWhile (fun c => c ≠ '/')).reverse

/-- Model of `filepath.Dir`: everything before the final path element,
trailing slashes trimmed (dot-segment cleaning omitted, see
`dropTrailingSlash`); no slash at all yields the current directory. -/
def dirName (p : Str) : Str :=
  let pre := (p.reverse.dropWhile (fun c => c ≠ '/')).reverse
  let pre2 := (pre.reverse.dropWhile (fun c => c = '/')).reverse
  if pre2 = [] then ['.'] else pre2

/-- Model of `Header` (zpack.go lines 93–105): the generation marker
comment followed by the package declaration and the fixed import block,
exactly the two `fp.Write` payloads. -/
def Header (pkg : Str) : Bytes :=
  strBytes "// Code generated by pack.go; DO NOT EDIT.\n\n"
    ++ (strBytes "package " ++ chBytes pkg
      ++ strBytes ("\n\nimport (\n\t\t\"bytes\"\n\t\t\"compress/zlib\"\n"
        ++ "\t\t\"encoding/base64\"\n\t\t\"io/ioutil\"\n\t)\n\n"
        ++ "var _, _, _, _ = zlib.BestSpeed, base64.NoPadding, ioutil.Discard, bytes.Join\n\n"))

/-- Model of `File` (zpack.go lines 108–117): read the file and emit a
scalar variable declaration; a stat or read failure is the error,
annotated with the path. -/
def File (z : ZlibModel) (fs : Fs) (varname path : Str) : Except Str Bytes :=
  match statNode fs path with
  | some (.file (some d)) =>
    .ok (strBytes "var " ++ chBytes varname ++ strBytes " = "
      ++ encText (enc z d) ++ strBytes "\n")
  | _ => .error path

/-- Model of `Dir` (zpack.go lines 133–154): ensure a trailing slash on
the root, walk the tree, and emit one map entry per yielded file, keyed
by its path, between the map header and the closing brace. -/
def Dir (z : ZlibModel) (ig : List Str) (fs : Fs) (varname path : Str) : Except Str Bytes :=
  let d := if (['/'] : Str).isSuffixOf path then path else path ++ ['/']
  match statNode fs path with
  | some node =>
    match walkW ig [(d, node)] with
    | some entries =>
      .ok (strBytes "var " ++ chBytes varname ++ strBytes " = map[string][]byte\x7b\n"
        ++ (entries.map (fun e => strBytes "\t\"" ++ chBytes e.1 ++ strBytes "\": "
              ++ encText (enc z e.2) ++ strBytes ",\n")).flatten
        ++ strBytes "\x7d\n\n")
    | none => .error path
  | none => .error path

/-- Declaration emitted for one symbol by the loop body of `Pack`: stat
the source path, then delegate to `Dir` for a directory and to `File`
for anything else. -/
def packSymbol (z : ZlibModel) (ig : List Str) (fs : Fs) (varname src : Str) : Except Str Bytes :=
  match statNode fs src with
  | none => .error src
  | some (.dir _) => Dir z ig fs varname src
  | some (.file _) => File z fs varname src

/-- Symbol names of one output target in emission order: `Pack` collects
the keys of the content map and sorts them with `sort.Strings`. -/
def targetVarnames (content : List (Str × Str)) : List Str :=
  (content.map Prod.fst).mergeSort strLe

/-- Declarations of one output target, concatenated over the sorted
symbol names; the first failing symbol aborts with its error. -/
def packDecls (z : ZlibModel) (ig : List Str) (fs : Fs) (content : List (Str × Str)) :
    List Str → Except Str Bytes
  | [] => .ok []
  | v :: rest => do
    let src ← match content.lookup v with
      | some s => Except.ok s
      | none => Except.error v
    let d ← packSymbol z ig fs v src
    let r ← packDecls z ig fs content rest
    .ok (d ++ r)

/-- Content of one output target as written before formatting: the
header derived from the containing directory of the output path,
followed by the declarations in sorted symbol order. -/
def packTarget (z : ZlibModel) (ig : List Str) (fs : Fs) (out : Str)
    (content : List (Str × Str)) : Except Str Bytes := do
  let decls ← packDecls z ig fs content (targetVarnames content)
  .ok (Header (baseName (dirName out)) ++ decls)

/-- One target's full pipeline: write the target, then run the external
formatter over it. -/
def packFormatted (z : ZlibModel) (ig : List Str) (fs : Fs)
    (gofmt : Bytes → Except Str Bytes) (out : Str) (content : List (Str × Str)) :
    Except Str Bytes := do
  let b ← packTarget z ig fs out content
  gofmt b

/-- Model of `Pack` (zpack.go lines 41–89) over the targets in one
iteration order of the Go map: each target is generated and formatted in
turn; the first error stops the run immediately and is returned, and the
outputs fully produced for earlier targets stay written. The partial
sink content of the failing target itself is not modelled. -/
def Pack (z : ZlibModel) (ig : List Str) (fs : Fs) (gofmt : Bytes → Except Str Bytes) :
    List (Str × List (Str × Str)) → List (Str × Bytes) × Option Str
  | [] => ([], none)
  | (out, content) :: rest =>
    match packFormatted z ig fs gofmt out content with
    | .error e => ([], some e)
    | .ok b =>
      let w := Pack z ig fs gofmt rest
      ((out, b) :: w.1, w.2)

theorem b64Val_b64Char {n : Nat} (h : n < 64) : b64Val (b64Char n) = some n := by
  unfold b64Char b64Val
  split_ifs <;> first | (congr 1; omega) | omega

theorem b64Val_b64Char_isSome (n : Nat) : (b64Val (b64Char n)).isSome = true := by
  unfold b64Char b64Val
  split_ifs <;> first | rfl | omega

theorem b64Char_ne_61 (n : Nat) : b64Char n ≠ 61 := by
  unfold b64Char; split_ifs <;> omega

theorem b64_roundtrip : ∀ s : Bytes, (∀ b ∈ s, b < 256) →
    b64Decode (b64Encode s) = some s := by
  intro s
  induction s using b64Encode.induct with
  | case4 => intro _; rfl
  | case3 b0 =>
    intro h
    have hb0 : b0 < 256 := h b0 (by simp)
    simp only [b64Encode, b64Decode]
    rw [b64Val_b64Char (by omega), b64Val_b64Char (by omega)]
    simp only [if_true, and_true, true_and, and_self, if_pos, Option.some.injEq,
      List.cons.injEq]
    omega
  | case2 b0 b1 =>
    intro h
    have hb0 : b0 < 256 := h b0 (by simp)
    have hb1 : b1 < 256 := h b1 (by simp)
    simp only [b64Encode, b64Decode]
    rw [b64Val_b64Char (by omega), b64Val_b64Char (by omega)]
    simp only []
    rw [if_neg (b64Char_ne_61 _)]
    rw [b64Val_b64Char (by omega)]
    simp only [if_true, and_true, true_and, Option.some.injEq, List.cons.injEq]
    omega
  | case1 b0 b1 b2 rest ih =>
    intro h
    have hb0 : b0 < 256 := h b0 (by simp)
    have hb1 : b1 < 256 := h b1 (by simp)
    have hb2 : b2 < 256 := h b2 (by simp)
    have hrest := ih (fun b hb => h b (by simp [hb]))
    simp only [b64Encode, b64Decode]
    rw [b64Val_b64Char (by omega), b64Val_b64Char (by omega)]
    simp only []
    rw [if_neg (b64Char_ne_61 _)]
    rw [b64Val_b64Char (by omega)]
    simp only []
    rw [if_neg (b64Char_ne_61 _)]
    rw [b64Val_b64Char (by omega), hrest]
    simp only [Option.some.injEq, List.cons.injEq, and_true, true_and]
    omega

theorem unescTick_escTick (s : Bytes) (hcr : ¬ 13 ∈ s) :
    unescTick (escTick s) = s := by
  induction s with
  | nil => rw [escTick, unescTick]
  | cons b rest ih =>
    have hb13 : b ≠ 13 := fun hcon => hcr (by rw [hcon]; exact List.mem_cons_self _ _)
    have hrest : ¬ 13 ∈ rest := fun hm => hcr (List.mem_cons_of_mem _ hm)
    by_cases h : b = 96
    · subst h
      rw [escTick, if_pos rfl, escSeq]
      simp only [List.cons_append, List.nil_append]
      rw [unescTick.eq_def]
      simp only []
      rw [if_pos (by simp [List.take])]
      simp only [List.drop]
      rw [ih hrest]
    · rw [escTick, if_neg h, unescTick.eq_def]
      simp only []
      rw [if_neg (by simp [h]), if_neg hb13, ih hrest]

theorem b64_alphabet : ∀ s : Bytes, ∀ c ∈ b64Encode s, (b64Val c).isSome = true ∨ c = 61 := by
  intro s
  induction s using b64Encode.induct with
  | case4 => intro c hc; simp [b64Encode] at hc
  | case3 b0 =>
    intro c hc
    simp only [b64Encode, List.mem_cons, List.mem_singleton, List.not_mem_nil] at hc
    rcases hc with h | h | h | h | h
    all_goals first
      | (left; rw [h]; exact b64Val_b64Char_isSome _)
      | (right; exact h)
      | (exact absurd h (by simp))
  | case2 b0 b1 =>
    intro c hc
    simp only [b64Encode, List.mem_cons, List.mem_singleton, List.not_mem_nil] at hc
    rcases hc with h | h | h | h | h
    all_goals first
      | (left; rw [h]; exact b64Val_b64Char_isSome _)
      | (right; exact h)
      | (exact absurd h (by simp))
  | case1 b0 b1 b2 rest ih =>
    intro c hc
    simp only [b64Encode, List.mem_cons] at hc
    rcases hc with h | h | h | h | h
    · left; rw [h]; exact b64Val_b64Char_isSome _
    · left; rw [h]; exact b64Val_b64Char_isSome _
    · left; rw [h]; exact b64Val_b64Char_isSome _
    · left; rw [h]; exact b64Val_b64Char_isSome _
    · exact ih c h

theorem b64_len_mod4 : ∀ s : Bytes, (b64Encode s).length % 4 = 0 := by
  intro s
  induction s using b64Encode.induct with
  | case4 => rfl
  | case3 b0 => simp [b64Encode]
  | case2 b0 b1 => simp [b64Encode]
  | case1 b0 b1 b2 rest ih => simp only [b64Encode, List.length_cons]; omega

theorem b64_padding_iff : ∀ s : Bytes, 61 ∈ b64Encode s ↔ s.length % 3 ≠ 0 := by
  intro s
  induction s using b64Encode.induct with
  | case4 => simp [b64Encode]
  | case3 b0 => simp [b64Encode]
  | case2 b0 b1 => simp [b64Encode]
  | case1 b0 b1 b2 rest ih =>
    simp only [b64Encode, List.mem_cons, List.length_cons]
    constructor
    · intro h
      rcases h with h | h | h | h | h
      · exact absurd h.symm (b64Char_ne_61 _)
      · exact absurd h.symm (b64Char_ne_61 _)
      · exact absurd h.symm (b64Char_ne_61 _)
      · exact absurd h.symm (b64Char_ne_61 _)
      · have := ih.mp h; omega
    · intro h
      have : rest.length % 3 ≠ 0 := by omega
      exact Or.inr (Or.inr (Or.inr (Or.inr (ih.mpr this))))

theorem enc_roundtrip_no_cr (z : ZlibModel) (s : Bytes)
    (hz : ∀ x, z.decompress (z.compress x) = some x)
    (hzb : ∀ x, (∀ b ∈ x, b < 256) → ∀ b ∈ z.compress x, b < 256)
    (hs : ∀ b ∈ s, b < 256)
    (hcr : ¬ 13 ∈ s ∨ ¬(s.contains 0 = false ∧ utf8Valid s = true)) :
    evalExpr z (enc z s) = some s := by
  unfold enc
  split_ifs with h1 h2
  · show some (unescTick (escTick s)) = some s
    rcases hcr with hcr | hcr
    · rw [unescTick_escTick s hcr]
    · exact absurd h1 hcr
  · show (b64Decode (b64Encode (z.compress s))).bind z.decompress = some s
    rw [b64_roundtrip (z.compress s) (hzb s hs)]
    show z.decompress (z.compress s) = some s
    exact hz s
  · show b64Decode (b64Encode s) = some s
    exact b64_roundtrip s hs

/-- C1 fails on the code: for the one-byte input `[13]` — a single
carriage return, pure ASCII text, so `enc` selects the Literal kind and
interpolates the byte verbatim into a raw string literal — the Go
compiler discards carriage returns from raw string literal values, so
the generated expression evaluates to the empty sequence, not to the
input. Any content with CRLF line endings is likewise silently
corrupted; the round-trip stated by the claim (and by the spec, as the
evident purpose of the packer) holds for the other two encoding kinds
and for CR-free literals (`enc_roundtrip_no_cr`), so the unguarded
Literal branch is a code bug. -/
theorem c1_cr_roundtrip_bug :
    enc zlibId [13] = GoExpr.literal [13]
    ∧ evalExpr zlibId (enc zlibId [13]) = some []
    ∧ some ([] : Bytes) ≠ some ([13] : Bytes) := by
  have h1 : enc zlibId [13] = GoExpr.literal [13] := by
    rw [enc, if_pos ⟨by decide, by decide⟩]
    simp [escTick]
  refine ⟨h1, ?_, by simp⟩
  rw [h1]
  show some (unescTick [13]) = some []
  simp [unescTick]

/-- C2: the encoder selects Literal exactly for NUL-free valid UTF-8
content, Encoded for other content of length at most 102400 bytes, and
CompressedEncoded for other content longer than 102400 bytes. -/
theorem c2_enc_selection (z : ZlibModel) (s : Bytes) :
    ((s.contains 0 = false ∧ utf8Valid s = true) → (enc z s).kind = .literal)
    ∧ (¬(s.contains 0 = false ∧ utf8Valid s = true) → s.length ≤ 102400 →
        (enc z s).kind = .encoded)
    ∧ (¬(s.contains 0 = false ∧ utf8Valid s = true) → s.length > 102400 →
        (enc z s).kind = .compressedEncoded) := by
  refine ⟨fun h => ?_, fun h hle => ?_, fun h hgt => ?_⟩
  · rw [enc, if_pos h]; rfl
  · rw [enc, if_neg h, if_neg (by omega)]; rfl
  · rw [enc, if_neg h, if_pos (by omega)]; rfl

/-- Witness for C2 at four concrete inputs, including both sides of the
102400-byte boundary for non-text content. -/
theorem c2_enc_selection_witness :
    (enc zlibId (strBytes "hi")).kind = .literal
    ∧ (enc zlibId [255]).kind = .encoded
    ∧ (enc zlibId (List.replicate 102400 255)).kind = .encoded
    ∧ (enc zlibId (List.replicate 102401 255)).kind = .compressedEncoded := by
  have hrep : ∀ t : Bytes, utf8Valid (255 :: t) = false := by
    intro t
    rw [utf8Valid, utf8Go.eq_def]
    norm_num
  have h400 : List.replicate 102400 255 = 255 :: List.replicate 102399 (255 : Nat) := by
    rw [show (102400 : Nat) = 102399 + 1 from rfl, List.replicate_succ]
  have h401 : List.replicate 102401 255 = 255 :: List.replicate 102400 (255 : Nat) := by
    rw [show (102401 : Nat) = 102400 + 1 from rfl, List.replicate_succ]
  refine ⟨(c2_enc_selection zlibId (strBytes "hi")).1 (by decide),
    (c2_enc_selection zlibId [255]).2.1 (by decide) (by decide),
    (c2_enc_selection zlibId (List.replicate 102400 255)).2.1 ?_ ?_,
    (c2_enc_selection zlibId (List.replicate 102401 255)).2.2 ?_ ?_⟩
  · rw [h400]
    rintro ⟨-, hv⟩
    rw [hrep] at hv
    exact Bool.false_ne_true hv
  · rw [List.length_replicate]
  · rw [h401]
    rintro ⟨-, hv⟩
    rw [hrep] at hv
    exact Bool.false_ne_true hv
  · rw [List.length_replicate]; omega

/-- C4 counterexample: the generated base-64 payload is padded. For the
one-byte non-text input `[255]` the Encoded payload is `/w==`, which
contains the padding byte 61 (the equals sign), so the claim that the
encoder applies the alphabet with no padding is false. -/
theorem c4_padding_counterexample :
    enc zlibId [255] = GoExpr.encoded (b64Encode [255])
    ∧ b64Encode [255] = [47, 119, 61, 61]
    ∧ ¬(∀ c ∈ b64Encode [255], c ≠ 61) := by
  refine ⟨?_, by decide, by decide⟩
  rw [enc, if_neg (by decide), if_neg (by decide)]

/-- C4 amended: in the Encoded form the encoder applies the standard
base-64 alphabet with padding directly to the raw bytes, and in the
CompressedEncoded form to the compressed bytes; every payload byte is an
alphabet byte or the padding byte 61, the payload length is a multiple
of four, and padding occurs exactly when the input length is not a
multiple of three. -/
theorem c4_base64_padded (z : ZlibModel) (s : Bytes)
    (hnl : ¬(s.contains 0 = false ∧ utf8Valid s = true)) :
    (s.length ≤ 102400 → enc z s = .encoded (b64Encode s))
    ∧ (s.length > 102400 → enc z s = .compressedEncoded (b64Encode (z.compress s)))
    ∧ (∀ c ∈ b64Encode s, (b64Val c).isSome = true ∨ c = 61)
    ∧ (b64Encode s).length % 4 = 0
    ∧ (61 ∈ b64Encode s ↔ s.length % 3 ≠ 0) := by
  refine ⟨fun hle => ?_, fun hgt => ?_, b64_alphabet s, b64_len_mod4 s, b64_padding_iff s⟩
  · rw [enc, if_neg hnl, if_neg (by omega)]
  · rw [enc, if_neg hnl, if_pos (by omega)]

/-- Witness for C4's amended statement at the concrete non-text input
`[255]`. -/
theorem c4_base64_padded_witness :
    enc zlibId [255] = .encoded (b64Encode [255])
    ∧ ((b64Encode [255]).length % 4 = 0) :=
  ⟨(c4_base64_padded zlibId [255] (by decide)).1 (by decide),
   (c4_base64_padded zlibId [255] (by decide)).2.2.2.1⟩

theorem varnameScan_sound (iL iD : Char → Bool) :
    ∀ (s : List Char) (r : Bool), ∀ c ∈ varnameScan iL iD s r,
      (iL c || iD c || c == '_') = true := by
  intro s
  induction s with
  | nil => intro r c hc; rw [varnameScan] at hc; exact absurd hc (List.not_mem_nil c)
  | cons a rest ih =>
    intro r c hc
    rw [varnameScan] at hc
    by_cases hv : (iL a || iD a || a == '_') = true
    · rw [if_pos hv] at hc
      rcases List.mem_cons.mp hc with h | h
      · subst h; exact hv
      · exact ih false c h
    · rw [if_neg hv] at hc
      cases r with
      | false =>
        simp only [Bool.not_false, if_pos] at hc
        rcases List.mem_cons.mp hc with h | h
        · subst h; simp
        · exact ih true c h
      | true =>
        simp only [Bool.not_true, Bool.false_eq_true, if_neg, if_false] at hc
        exact ih true c hc

theorem varnameScan_cons_ne_nil (iL iD : Char → Bool) (a : Char) (rest : List Char) :
    varnameScan iL iD (a :: rest) false ≠ [] := by
  rw [varnameScan]
  by_cases hv : (iL a || iD a || a == '_') = true
  · rw [if_pos hv]; exact List.cons_ne_nil _ _
  · rw [if_neg hv]
    simp only [Bool.not_false, if_pos]
    exact List.cons_ne_nil _ _

theorem varnameScan_true_eq (iL iD : Char → Bool) :
    ∀ s : List Char, varnameScan iL iD s true
      = varnameScan iL iD (s.dropWhile (fun d => !(iL d || iD d || d == '_'))) false := by
  intro s
  induction s with
  | nil => rfl
  | cons a rest ih =>
    by_cases hv : (iL a || iD a || a == '_') = true
    · rw [varnameScan, if_pos hv, List.dropWhile_cons]
      simp only [hv, Bool.not_true, Bool.false_eq_true, if_false]
      rw [varnameScan, if_pos hv]
    · rw [varnameScan, if_neg hv, List.dropWhile_cons]
      have hv2 : (iL a || iD a || a == '_') = false := by
        cases h : (iL a || iD a || a == '_') with
        | false => rfl
        | true => exact absurd h hv
      simp only [hv2, Bool.not_false, if_true, Bool.not_true, Bool.false_eq_true, if_false]
      exact ih

theorem varnameScan_eq_collapse (iL iD : Char → Bool) :
    ∀ s : List Char, varnameScan iL iD s false
      = collapseInvalid (fun c => iL c || iD c || c == '_') s := by
  intro s
  induction s using collapseInvalid.induct (fun c => iL c || iD c || c == '_') with
  | case1 => rw [varnameScan]; simp [collapseInvalid]
  | case2 c rest hv ih =>
    rw [varnameScan, if_pos hv, collapseInvalid, if_pos hv, ih]
  | case3 c rest hv ih =>
    have hv2 : (iL c || iD c || c == '_') ≠ true := by simp [hv]
    rw [varnameScan, if_neg hv2, collapseInvalid, if_neg hv2]
    simp only [Bool.not_false, if_pos]
    rw [varnameScan_true_eq, ih]

theorem varnameScan_all_valid (iL iD : Char → Bool) :
    ∀ s : List Char, (∀ c ∈ s, (iL c || iD c || c == '_') = true) →
      varnameScan iL iD s false = s := by
  intro s
  induction s with
  | nil => intro _; rfl
  | cons a rest ih =>
    intro h
    rw [varnameScan, if_pos (h a (by simp))]
    rw [ih (fun c hc => h c (by simp [hc]))]

/-- C3: the sanitizer's output contains only letters, digits and
underscores; it is empty exactly for empty input; a non-empty output
starts with a letter or an underscore (possibly the prepended
placeholder letter `v`, a letter); and the scan output is exactly the
spec's collapse: valid runs verbatim, each maximal invalid run one
underscore. Stated over arbitrary letter/digit predicates with the one
fact `unicode.IsLetter` guarantees here, that `v` is a letter. -/
theorem c3_varname_spec (iL iD : Char → Bool) (s out : List Char)
    (hv : iL 'v' = true) (h : Varname iL iD s = some out) :
    (∀ c ∈ out, iL c = true ∨ iD c = true ∨ c = '_')
    ∧ (out = [] ↔ s = [])
    ∧ (∀ c cs, out = c :: cs → iL c = true ∨ c = '_')
    ∧ (out = collapseInvalid (fun c => iL c || iD c || c == '_') s
        ∨ out = 'v' :: collapseInvalid (fun c => iL c || iD c || c == '_') s) := by
  rw [Varname] at h
  by_cases hs : s = []
  · rw [if_pos hs] at h
    have hout : out = [] := by injection h with h2; exact h2.symm
    subst hout; subst hs
    refine ⟨fun c hc => absurd hc (List.not_mem_nil c), by simp, fun c cs hc => by simp at hc, ?_⟩
    left; simp [collapseInvalid]
  · rw [if_neg hs] at h
    cases hsc : varnameScan iL iD s false with
    | nil => rw [hsc] at h; exact absurd h (by simp)
    | cons c cs =>
      rw [hsc] at h
      simp only [] at h
      have hmem : ∀ d ∈ c :: cs, (iL d || iD d || d == '_') = true := by
        rw [← hsc]; exact fun d hd => varnameScan_sound iL iD s false d hd
      have hcoll : c :: cs = collapseInvalid (fun d => iL d || iD d || d == '_') s := by
        rw [← hsc, varnameScan_eq_collapse]
      by_cases hp : c ≠ '_' ∧ iL c = false
      · rw [if_pos hp] at h
        have hout : out = 'v' :: c :: cs := by injection h with h2; exact h2.symm
        subst hout
        refine ⟨?_, ?_, ?_, Or.inr (by rw [hcoll])⟩
        · intro d hd
          rcases List.mem_cons.mp hd with h1 | h1
          · subst h1; exact Or.inl hv
          · have := hmem d h1
            simpa [Bool.or_eq_true, beq_iff_eq, or_assoc] using this
        · constructor
          · intro hcon; exact absurd hcon (List.cons_ne_nil _ _)
          · intro hcon; exact absurd hcon hs
        · intro d ds hd
          have : d = 'v' := by injection hd with h1 h2; exact h1.symm
          subst this; exact Or.inl hv
      · rw [if_neg hp] at h
        have hout : out = c :: cs := by injection h with h2; exact h2.symm
        subst hout
        have hhead : iL c = true ∨ c = '_' := by
          by_cases hc : c = '_'
          · exact Or.inr hc
          · left
            by_cases hl : iL c = true
            · exact hl
            · exact absurd ⟨hc, by simpa using hl⟩ hp
        refine ⟨?_, ?_, ?_, Or.inl (by rw [hcoll])⟩
        · intro d hd
          have := hmem d hd
          simpa [Bool.or_eq_true, beq_iff_eq, or_assoc] using this
        · constructor
          · intro hcon; exact absurd hcon (List.cons_ne_nil _ _)
          · intro hcon; exact absurd hcon hs
        · intro d ds hd
          have : d = c := by injection hd with h1 h2; exact h1.symm
          subst this
          rcases hhead with h1 | h1
          · exact Or.inl h1
          · exact Or.inr h1

/-- Witness for C3 at the spec's own example `a..b`, which sanitizes to
`a_b`, with the real ASCII letter and digit classifiers. -/
theorem c3_varname_spec_witness :
    ((chs "a_b") = [] ↔ (chs "a..b") = [])
    ∧ ((chs "a_b") = collapseInvalid
          (fun c => Char.isAlpha c || Char.isDigit c || c == '_') (chs "a..b")
        ∨ (chs "a_b") = 'v' :: collapseInvalid
          (fun c => Char.isAlpha c || Char.isDigit c || c == '_') (chs "a..b")) :=
  ⟨(c3_varname_spec Char.isAlpha Char.isDigit (chs "a..b") (chs "a_b")
      (by decide) (by decide)).2.1,
   (c3_varname_spec Char.isAlpha Char.isDigit (chs "a..b") (chs "a_b")
      (by decide) (by decide)).2.2.2⟩

/-- C9: the sanitizer is idempotent; its output is a fixed point, again
granted only that the placeholder `v` is a letter. -/
theorem c9_varname_idempotent (iL iD : Char → Bool) (s out : List Char)
    (hv : iL 'v' = true) (h : Varname iL iD s = some out) :
    Varname iL iD out = some out := by
  rw [Varname] at h
  by_cases hs : s = []
  · rw [if_pos hs] at h
    have hout : out = [] := by injection h with h2; exact h2.symm
    subst hout; rw [Varname, if_pos rfl]
  · rw [if_neg hs] at h
    cases hsc : varnameScan iL iD s false with
    | nil => rw [hsc] at h; exact absurd h (by simp)
    | cons c cs =>
      rw [hsc] at h
      simp only [] at h
      have hmem : ∀ d ∈ c :: cs, (iL d || iD d || d == '_') = true := by
        rw [← hsc]; exact fun d hd => varnameScan_sound iL iD s false d hd
      by_cases hp : c ≠ '_' ∧ iL c = false
      · rw [if_pos hp] at h
        have hout : out = 'v' :: c :: cs := by injection h with h2; exact h2.symm
        subst hout
        have hall : ∀ d ∈ 'v' :: c :: cs, (iL d || iD d || d == '_') = true := by
          intro d hd
          rcases List.mem_cons.mp hd with h1 | h1
          · subst h1; simp [hv]
          · exact hmem d h1
        rw [Varname, if_neg (List.cons_ne_nil _ _), varnameScan_all_valid iL iD _ hall]
        show (if ('v' : Char) ≠ '_' ∧ iL 'v' = false
            then some ('v' :: 'v' :: c :: cs) else some ('v' :: c :: cs))
          = some ('v' :: c :: cs)
        rw [if_neg (by simp [hv])]
      · rw [if_neg hp] at h
        have hout : out = c :: cs := by injection h with h2; exact h2.symm
        subst hout
        rw [Varname, if_neg (List.cons_ne_nil _ _), varnameScan_all_valid iL iD _ hmem]
        show (if c ≠ '_' ∧ iL c = false
            then some ('v' :: c :: cs) else some (c :: cs)) = some (c :: cs)
        rw [if_neg hp]

/-- Witness for C9: sanitizing `1ab` yields `v1ab`, which is itself a
fixed point of the sanitizer. -/
theorem c9_varname_idempotent_witness :
    Varname Char.isAlpha Char.isDigit (chs "v1ab") = some (chs "v1ab") :=
  c9_varname_idempotent Char.isAlpha Char.isDigit (chs "1ab") (chs "v1ab")
    (by decide) (by decide)

/-- C10: for non-empty input the scan pass yields at least one rune, so
the inspection of the first accumulated rune is in bounds and the
sanitizer never takes the out-of-bounds branch (modelled `none`). -/
theorem c10_varname_total (iL iD : Char → Bool) (s : List Char) :
    (s ≠ [] → varnameScan iL iD s false ≠ [])
    ∧ (Varname iL iD s).isSome = true := by
  constructor
  · intro hs
    cases s with
    | nil => exact absurd rfl hs
    | cons a rest => exact varnameScan_cons_ne_nil iL iD a rest
  · rw [Varname]
    by_cases hs : s = []
    · rw [if_pos hs]; rfl
    · rw [if_neg hs]
      cases s with
      | nil => exact absurd rfl hs
      | cons a rest =>
        cases hsc : varnameScan iL iD (a :: rest) false with
        | nil => exact absurd hsc (varnameScan_cons_ne_nil iL iD a rest)
        | cons c cs =>
          show (if c ≠ '_' ∧ iL c = false
              then some ('v' :: c :: cs) else some (c :: cs)).isSome = true
          by_cases hp : c ≠ '_' ∧ iL c = false
          · rw [if_pos hp]; rfl
          · rw [if_neg hp]; rfl

/-- Witness for C10 at a non-empty input whose first rune is invalid. -/
theorem c10_varname_total_witness :
    varnameScan Char.isAlpha Char.isDigit (chs ".x") false ≠ []
    ∧ (Varname Char.isAlpha Char.isDigit (chs ".x")).isSome = true :=
  ⟨(c10_varname_total Char.isAlpha Char.isDigit (chs ".x")).1 (by decide),
   (c10_varname_total Char.isAlpha Char.isDigit (chs ".x")).2⟩

theorem strLe_total : ∀ a b : Str, strLe a b = true ∨ strLe b a = true := by
  intro a
  induction a with
  | nil => intro b; left; rfl
  | cons x xs ih =>
    intro b
    cases b with
    | nil => right; rfl
    | cons y ys =>
      rw [strLe, strLe]
      by_cases h1 : x.toNat < y.toNat
      · left; rw [if_pos h1]
      · by_cases h2 : y.toNat < x.toNat
        · right; rw [if_pos h2]
        · rw [if_neg h1, if_neg h2, if_neg (by omega), if_neg (by omega)]
          exact ih ys

theorem strLe_trans : ∀ a b c : Str, strLe a b = true → strLe b c = true →
    strLe a c = true := by
  intro a
  induction a with
  | nil => intro b c _ _; rfl
  | cons x xs ih =>
    intro b c hab hbc
    cases b with
    | nil => rw [strLe] at hab; exact absurd hab (by simp)
    | cons y ys =>
      cases c with
      | nil => rw [strLe] at hbc; exact absurd hbc (by simp)
      | cons z zs =>
        rw [strLe] at hab hbc ⊢
        by_cases h1 : x.toNat < y.toNat
        · by_cases h2 : y.toNat < z.toNat
          · rw [if_pos (by omega)]
          · rw [if_neg h2] at hbc
            by_cases h3 : z.toNat < y.toNat
            · rw [if_pos h3] at hbc; exact absurd hbc (by simp)
            · rw [if_pos (by omega)]
        · rw [if_neg h1] at hab
          by_cases h4 : y.toNat < x.toNat
          · rw [if_pos h4] at hab; exact absurd hab (by simp)
          · rw [if_neg h4] at hab
            by_cases h2 : y.toNat < z.toNat
            · rw [if_pos (by omega)]
            · rw [if_neg h2] at hbc
              by_cases h3 : z.toNat < y.toNat
              · rw [if_pos h3] at hbc; exact absurd hbc (by simp)
              · rw [if_neg h3] at hbc
                rw [if_neg (by omega), if_neg (by omega)]
                exact ih ys zs hab hbc

theorem strLe_antisymm : ∀ a b : Str, strLe a b = true → strLe b a = true → a = b := by
  intro a
  induction a with
  | nil =>
    intro b _ hba
    cases b with
    | nil => rfl
    | cons y ys => rw [strLe] at hba; exact absurd hba (by simp)
  | cons x xs ih =>
    intro b hab hba
    cases b with
    | nil => rw [strLe] at hab; exact absurd hab (by simp)
    | cons y ys =>
      rw [strLe] at hab hba
      by_cases h1 : x.toNat < y.toNat
      · rw [if_neg (by omega), if_pos h1] at hba; exact absurd hba (by simp)
      · by_cases h2 : y.toNat < x.toNat
        · rw [if_neg h1, if_pos h2] at hab; exact absurd hab (by simp)
        · rw [if_neg h1, if_neg h2] at hab
          rw [if_neg h2, if_neg h1] at hba
          have hton : x.toNat = y.toNat := by omega
          have hxy : x = y :=
            Char.eq_of_val_eq (UInt32.eq_of_val_eq (Fin.eq_of_val_eq hton))
          rw [hxy, ih ys hab hba]

theorem mem_fst_inj {β : Type} {l : List (Str × β)} (hnd : (l.map Prod.fst).Nodup)
    {a b : Str × β} (ha : a ∈ l) (hb : b ∈ l) (hf : a.1 = b.1) : a = b := by
  induction l with
  | nil => exact absurd ha (List.not_mem_nil a)
  | cons x xs ih =>
    rw [List.map_cons, List.nodup_cons] at hnd
    rcases List.mem_cons.mp ha with h1 | h1
    · rcases List.mem_cons.mp hb with h2 | h2
      · rw [h1, h2]
      · exfalso
        apply hnd.1
        have hx : x.1 = b.1 := by rw [← h1]; exact hf
        rw [hx]
        exact List.mem_map_of_mem Prod.fst h2
    · rcases List.mem_cons.mp hb with h2 | h2
      · exfalso
        apply hnd.1
        have hx : x.1 = a.1 := by rw [← h2]; exact hf.symm
        rw [hx]
        exact List.mem_map_of_mem Prod.fst h1
      · exact ih hnd.2 h1 h2

theorem sortEntries_eq_of_perm {es1 es2 : List (Str × FsNode)} (hp : es1.Perm es2)
    (hnd : (es1.map Prod.fst).Nodup) : sortEntries es1 = sortEntries es2 := by
  refine @List.Perm.eq_of_sorted _ (fun a b : Str × FsNode => strLe a.1 b.1 = true)
    _ _ ?_ ?_ ?_ ?_
  · intro a b ha hb hab hba
    have ha2 : a ∈ es1 := (List.mergeSort_perm es1 _).mem_iff.mp ha
    have hb2 : b ∈ es1 := hp.symm.subset ((List.mergeSort_perm es2 _).mem_iff.mp hb)
    exact mem_fst_inj hnd ha2 hb2 (strLe_antisymm _ _ hab hba)
  · exact List.sorted_mergeSort
      (fun a b c hab hbc => strLe_trans a.1 b.1 c.1 hab hbc)
      (fun a b => by rw [Bool.or_eq_true]; exact strLe_total a.1 b.1) es1
  · exact List.sorted_mergeSort
      (fun a b c hab hbc => strLe_trans a.1 b.1 c.1 hab hbc)
      (fun a b => by rw [Bool.or_eq_true]; exact strLe_total a.1 b.1) es2
  · exact (List.mergeSort_perm es1 _).trans (hp.trans (List.mergeSort_perm es2 _).symm)

theorem sortStr_eq_of_perm {l1 l2 : List Str} (hp : l1.Perm l2) :
    l1.mergeSort strLe = l2.mergeSort strLe := by
  refine @List.Perm.eq_of_sorted _ (fun a b : Str => strLe a b = true) _ _ ?_ ?_ ?_ ?_
  · intro a b _ _ hab hba
    exact strLe_antisymm a b hab hba
  · exact List.sorted_mergeSort strLe_trans
      (fun a b => by rw [Bool.or_eq_true]; exact strLe_total a b) l1
  · exact List.sorted_mergeSort strLe_trans
      (fun a b => by rw [Bool.or_eq_true]; exact strLe_total a b) l2
  · exact (List.mergeSort_perm l1 _).trans (hp.trans (List.mergeSort_perm l2 _).symm)

theorem lookup_perm {β : Type} {l1 l2 : List (Str × β)} (hp : l1.Perm l2)
    (hnd : (l1.map Prod.fst).Nodup) : ∀ k : Str, l1.lookup k = l2.lookup k := by
  induction hp with
  | nil => intro k; rfl
  | cons x h ih =>
    intro k
    obtain ⟨xk, xv⟩ := x
    rw [List.map_cons, List.nodup_cons] at hnd
    cases hk : (k == xk) with
    | true => simp [List.lookup, hk]
    | false =>
      simp only [List.lookup, hk]
      exact ih hnd.2 k
  | swap x y l =>
    intro k
    obtain ⟨xk, xv⟩ := x
    obtain ⟨yk, yv⟩ := y
    simp only [List.map_cons, List.nodup_cons, List.mem_cons, List.mem_map] at hnd
    have hxy : yk ≠ xk := by
      intro hcon
      exact hnd.1 (Or.inl hcon)
    cases hk1 : (k == yk) with
    | true =>
      cases hk2 : (k == xk) with
      | true =>
        exfalso
        have h1 : k = yk := by simpa using hk1
        have h2 : k = xk := by simpa using hk2
        exact hxy (by rw [← h1, ← h2])
      | false => simp [List.lookup, hk1, hk2]
    | false =>
      cases hk2 : (k == xk) with
      | true => simp [List.lookup, hk1, hk2]
      | false => simp [List.lookup, hk1, hk2]
  | trans h1 h2 ih1 ih2 =>
    intro k
    have hnd2 := ((h1.map Prod.fst).nodup_iff).mp hnd
    rw [ih1 hnd k, ih2 hnd2 k]

theorem walkW_mem (ig : List Str) :
    ∀ wl l, walkW ig wl = some l →
      ∀ q b, ((q, b) ∈ l ↔ ((q, some b) ∈ filesW wl ∧ hasSuffixIn ig q = false)) := by
  intro wl
  induction wl using walkW.induct ig with
  | case1 =>
    intro l h q b
    simp only [walkW, Option.some.injEq] at h
    subst h
    simp [filesW]
  | case2 p rest hig ih =>
    intro l h q b
    simp only [walkW, if_pos hig] at h
    simp only [filesW, List.mem_cons]
    rw [ih l h q b]
    constructor
    · intro hm
      exact ⟨Or.inr hm.1, hm.2⟩
    · rintro ⟨hm | hm, hq⟩
      · exfalso
        have h2 := (Prod.mk.injEq _ _ _ _).mp hm
        exact Option.some_ne_none b h2.2
      · exact ⟨hm, hq⟩
  | case3 p rest hig =>
    intro l h q b
    simp only [walkW, if_neg hig] at h
    exact absurd h (by simp)
  | case4 p b0 rest hig ih =>
    intro l h q b
    simp only [walkW, if_pos hig] at h
    simp only [filesW, List.mem_cons]
    rw [ih l h q b]
    constructor
    · intro hm
      exact ⟨Or.inr hm.1, hm.2⟩
    · rintro ⟨hm | hm, hq⟩
      · exfalso
        have h2 := (Prod.mk.injEq _ _ _ _).mp hm
        rw [h2.1] at hq
        rw [hq] at hig
        exact Bool.false_ne_true hig
      · exact ⟨hm, hq⟩
  | case5 p b0 rest hig ih =>
    intro l h q b
    simp only [walkW, if_neg hig] at h
    rw [Option.map_eq_some'] at h
    obtain ⟨l2, hl2, heq⟩ := h
    subst heq
    have hpf : hasSuffixIn ig p = false := by
      cases hval : hasSuffixIn ig p with
      | false => rfl
      | true => exact absurd hval hig
    simp only [filesW, List.mem_cons]
    rw [ih l2 hl2 q b]
    constructor
    · rintro (hm | hm)
      · have h2 := (Prod.mk.injEq _ _ _ _).mp hm
        refine ⟨Or.inl ?_, ?_⟩
        · rw [h2.1, h2.2]
        · rw [h2.1]; exact hpf
      · exact ⟨Or.inr hm.1, hm.2⟩
    · rintro ⟨hm | hm, hq⟩
      · left
        have h2 := (Prod.mk.injEq _ _ _ _).mp hm
        have h3 : b = b0 := by
          have := h2.2
          injection this
        rw [h2.1, h3]
      · right
        exact ⟨hm, hq⟩
  | case6 p es rest ih =>
    intro l h q b
    simp only [walkW] at h
    simp only [filesW]
    exact ih l h q b

/-- C6: a directory walk with an ignore-suffix set yields exactly the
reachable regular files whose path matches no ignore suffix: membership
in the produced mapping is equivalent to being a readable file of the
tree that is not suffix-ignored; ignored entries are skipped before
being read (the walk can succeed even when an ignored file is
unreadable, as the witness shows). -/
theorem c6_ignore_filter (ig : List Str) (p : Str) (node : FsNode)
    (l : List (Str × Bytes)) (h : walkW ig [(p, node)] = some l) (q : Str) (b : Bytes) :
    (q, b) ∈ l ↔ ((q, some b) ∈ filesW [(p, node)] ∧ hasSuffixIn ig q = false) :=
  walkW_mem ig [(p, node)] l h q b

/-- Witness for C6: the spec's own example, a directory with `a.txt` and
`a.keep` packed with ignore suffix `.keep` — and `a.keep` even
unreadable — walks to a mapping containing only `a.txt`. -/
theorem c6_ignore_filter_witness :
    walkW [chs ".keep"]
        [(chs "d/", FsNode.dir [(chs "a.keep", FsNode.file none),
                                (chs "a.txt", FsNode.file (some [104]))])]
      = some [(chs "d/a.txt", [104])]
    ∧ ¬((chs "d/a.keep", ([104] : Bytes)) ∈ [((chs "d/a.txt" : Str), ([104] : Bytes))]) := by
  have h : walkW [chs ".keep"]
      [(chs "d/", FsNode.dir [(chs "a.keep", FsNode.file none),
                              (chs "a.txt", FsNode.file (some [104]))])]
      = some [(chs "d/a.txt", [104])] := by
    simp [walkW, sortEntries, List.mergeSort, strLe, joinPath, dropTrailingSlash,
      hasSuffixIn, chs, List.isSuffixOf, List.isPrefixOf]
  refine ⟨h, ?_⟩
  rw [c6_ignore_filter [chs ".keep"] (chs "d/") _ _ h (chs "d/a.keep") [104]]
  rintro ⟨-, hq⟩
  have : hasSuffixIn [chs ".keep"] (chs "d/a.keep") = true := by decide
  rw [this] at hq
  simp at hq

theorem packDecls_congr (z : ZlibModel) (ig : List Str) (fs : Fs)
    (c1 c2 : List (Str × Str)) (hl : ∀ v, c1.lookup v = c2.lookup v) :
    ∀ vs, packDecls z ig fs c1 vs = packDecls z ig fs c2 vs := by
  intro vs
  induction vs with
  | nil => rfl
  | cons v rest ih =>
    simp only [packDecls]
    rw [hl v, ih]

/-- C5 counterexample: the walk order is not, in general, lexicographic
full-path order. In a directory `d` holding a subdirectory `a`
(containing file `x`) and a file `a!`, the walk yields `d/a/x` before
`d/a!`, yet `d/a!` is lexicographically smaller (the exclamation mark
sorts before the path separator), so the produced directory-mapping
entries are not in lexicographically sorted path order. -/
theorem c5_path_order_counterexample :
    walkW [] [(chs "d", FsNode.dir
        [(chs "a", FsNode.dir [(chs "x", FsNode.file (some [49]))]),
         (chs "a!", FsNode.file (some [50]))])]
      = some [(chs "d/a/x", [49]), (chs "d/a!", [50])]
    ∧ strLe (chs "d/a!") (chs "d/a/x") = true
    ∧ chs "d/a!" ≠ chs "d/a/x"
    ∧ ¬ List.Pairwise (fun a b : Str × Bytes => strLe a.1 b.1 = true)
        [((chs "d/a/x" : Str), ([49] : Bytes)), (chs "d/a!", [50])] := by
  refine ⟨?_, by decide, by decide, by decide⟩
  simp [walkW, sortEntries, List.mergeSort, strLe, joinPath, dropTrailingSlash,
    hasSuffixIn, chs]

/-- C5 amended: the generated output for a target is a deterministic
function of the snapshot and spec — it is unchanged under any
re-ordering of the content map's iteration (Go map range order) and of
any directory listing (both with distinct names, as for real maps and
directories) — the emitted symbol order is the lexicographically sorted
varname order, and directory entries follow the depth-first walk that
sorts sibling names lexicographically at each level (which is not
always sorted full-path order, see the counterexample). -/
theorem c5_determinism (z : ZlibModel) (ig : List Str) (fs : Fs) (out : Str)
    (c1 c2 : List (Str × Str)) (hp : c1.Perm c2) (hnd : (c1.map Prod.fst).Nodup)
    (p : Str) (es1 es2 : List (Str × FsNode)) (hep : es1.Perm es2)
    (hend : (es1.map Prod.fst).Nodup) :
    packTarget z ig fs out c1 = packTarget z ig fs out c2
    ∧ List.Pairwise (fun a b => strLe a b = true) (targetVarnames c1)
    ∧ walkW ig [(p, FsNode.dir es1)] = walkW ig [(p, FsNode.dir es2)] := by
  refine ⟨?_, ?_, ?_⟩
  · have hnames : targetVarnames c1 = targetVarnames c2 := by
      rw [targetVarnames, targetVarnames]
      exact sortStr_eq_of_perm (hp.map Prod.fst)
    rw [packTarget, packTarget, hnames,
      packDecls_congr z ig fs c1 c2 (lookup_perm hp hnd) (targetVarnames c2)]
  · exact List.sorted_mergeSort strLe_trans
      (fun a b => by rw [Bool.or_eq_true]; exact strLe_total a b) _
  · simp only [walkW]
    rw [sortEntries_eq_of_perm hep hend]

/-- Witness for C5 at a concrete spec: a two-symbol content map given in
two iteration orders and a two-entry directory listed in two orders
produce identical output, and the symbol order is sorted. -/
theorem c5_determinism_witness :
    packTarget zlibId [] [(chs "f", FsNode.file (some [104]))] (chs "o")
        [(chs "b", chs "f"), (chs "a", chs "f")]
      = packTarget zlibId [] [(chs "f", FsNode.file (some [104]))] (chs "o")
        [(chs "a", chs "f"), (chs "b", chs "f")]
    ∧ List.Pairwise (fun a b => strLe a b = true)
        (targetVarnames [(chs "b", chs "f"), (chs "a", chs "f")])
    ∧ walkW [] [(chs "r", FsNode.dir
          [(chs "n2", FsNode.file (some [50])), (chs "n1", FsNode.file (some [49]))])]
      = walkW [] [(chs "r", FsNode.dir
          [(chs "n1", FsNode.file (some [49])), (chs "n2", FsNode.file (some [50]))])] :=
  c5_determinism zlibId [] [(chs "f", FsNode.file (some [104]))] (chs "o")
    [(chs "b", chs "f"), (chs "a", chs "f")] [(chs "a", chs "f"), (chs "b", chs "f")]
    (by decide) (by decide) (chs "r")
    [(chs "n2", FsNode.file (some [50])), (chs "n1", FsNode.file (some [49]))]
    [(chs "n1", FsNode.file (some [49])), (chs "n2", FsNode.file (some [50]))]
    (List.Perm.swap _ _ _) (by decide)

theorem except_bind_ok {ε α β : Type} (a : α) (f : α → Except ε β) :
    (Except.ok a >>= f : Except ε β) = f a := rfl

theorem except_bind_error {ε α β : Type} (e : ε) (f : α → Except ε β) :
    (Except.error e >>= f : Except ε β) = Except.error e := rfl

/-- C7: processing the output targets in order, the first failing target
aborts the run immediately with that target's error — the targets after
it are not attempted (the result does not depend on them at all) — and
the outputs already fully written for the earlier, successful targets
are kept as they are, with no clean-up or roll-back. -/
theorem c7_abort (z : ZlibModel) (ig : List Str) (fs : Fs)
    (gofmt : Bytes → Except Str Bytes) (pre : List (Str × List (Str × Str)))
    (ws : List (Str × Bytes)) (out : Str) (content : List (Str × Str))
    (post : List (Str × List (Str × Str))) (e : Str)
    (hpre : Pack z ig fs gofmt pre = (ws, none))
    (hfail : packFormatted z ig fs gofmt out content = .error e) :
    Pack z ig fs gofmt (pre ++ (out, content) :: post) = (ws, some e) := by
  induction pre generalizing ws with
  | nil =>
    simp only [Pack] at hpre
    have hws : ws = [] := ((Prod.mk.injEq _ _ _ _).mp hpre).1.symm
    subst hws
    simp only [List.nil_append, Pack, hfail]
  | cons t pre2 ih =>
    obtain ⟨o, c⟩ := t
    simp only [List.cons_append, Pack] at hpre ⊢
    cases hoc : packFormatted z ig fs gofmt o c with
    | error e2 =>
      rw [hoc] at hpre
      simp only [] at hpre
      exact absurd ((Prod.mk.injEq _ _ _ _).mp hpre).2 (by simp)
    | ok b =>
      rw [hoc] at hpre
      simp only [] at hpre ⊢
      have h1 : ws = (o, b) :: (Pack z ig fs gofmt pre2).1 :=
        ((Prod.mk.injEq _ _ _ _).mp hpre).1.symm
      have h2 : (Pack z ig fs gofmt pre2).2 = none :=
        ((Prod.mk.injEq _ _ _ _).mp hpre).2
      have h3 : Pack z ig fs gofmt pre2 = ((Pack z ig fs gofmt pre2).1, none) := by
        rw [← h2]
      have h4 := ih (Pack z ig fs gofmt pre2).1 h3
      simp only [List.append_eq]
      rw [h4, h1]

/-- Witness for C7: one successful target, then a target with a missing
source path, then a further target; the run returns the middle target's
error and keeps the first target's written output. -/
theorem c7_abort_witness :
    Pack zlibId [] [(chs "f", FsNode.file (some [104]))] (fun b => .ok b)
        ([(chs "o1", [(chs "A", chs "f")])]
          ++ (chs "o2", [(chs "B", chs "missing")])
          :: [(chs "o3", [(chs "C", chs "f")])])
      = ((Pack zlibId [] [(chs "f", FsNode.file (some [104]))] (fun b => .ok b)
            [(chs "o1", [(chs "A", chs "f")])]).1, some (chs "missing")) := by
  have hok : (packFormatted zlibId [] [(chs "f", FsNode.file (some [104]))]
      (fun b => .ok b) (chs "o1") [(chs "A", chs "f")]).isOk = true := by
    simp [packFormatted, packTarget, packDecls, targetVarnames, List.mergeSort,
      packSymbol, statNode, File, List.lookup, chs, except_bind_ok, except_bind_error,
      Except.isOk, Except.toBool]
  have hpre : Pack zlibId [] [(chs "f", FsNode.file (some [104]))] (fun b => .ok b)
      [(chs "o1", [(chs "A", chs "f")])]
      = ((Pack zlibId [] [(chs "f", FsNode.file (some [104]))] (fun b => .ok b)
            [(chs "o1", [(chs "A", chs "f")])]).1, none) := by
    cases hoc : packFormatted zlibId [] [(chs "f", FsNode.file (some [104]))]
        (fun b => .ok b) (chs "o1") [(chs "A", chs "f")] with
    | error e2 =>
      rw [hoc] at hok
      simp [Except.isOk, Except.toBool] at hok
    | ok b => simp [Pack, hoc]
  have hfail : packFormatted zlibId [] [(chs "f", FsNode.file (some [104]))]
      (fun b => .ok b) (chs "o2") [(chs "B", chs "missing")] = .error (chs "missing") := by
    simp [packFormatted, packTarget, packDecls, targetVarnames, List.mergeSort,
      packSymbol, statNode, File, List.lookup, chs, except_bind_ok, except_bind_error]
  exact c7_abort zlibId [] [(chs "f", FsNode.file (some [104]))] (fun b => .ok b)
    [(chs "o1", [(chs "A", chs "f")])] _ (chs "o2") [(chs "B", chs "missing")]
    [(chs "o3", [(chs "C", chs "f")])] (chs "missing") hpre hfail

/-- C8: each generated target file is exactly the fixed generation
marker comment, then the package declaration whose name derives from the
base name of the containing directory of the output path (with the
fixed imports), then the symbol declarations. -/
theorem c8_output_layout (z : ZlibModel) (ig : List Str) (fs : Fs) (out : Str)
    (content : List (Str × Str)) (decls : Bytes)
    (h : packDecls z ig fs content (targetVarnames content) = .ok decls) :
    packTarget z ig fs out content
      = .ok (strBytes "// Code generated by pack.go; DO NOT EDIT.\n\n"
          ++ (strBytes "package " ++ chBytes (baseName (dirName out))
            ++ strBytes ("\n\nimport (\n\t\t\"bytes\"\n\t\t\"compress/zlib\"\n"
              ++ "\t\t\"encoding/base64\"\n\t\t\"io/ioutil\"\n\t)\n\n"
              ++ "var _, _, _, _ = zlib.BestSpeed, base64.NoPadding, ioutil.Discard, bytes.Join\n\n"))
          ++ decls) := by
  rw [packTarget, h, except_bind_ok, Header]

/-- Witness for C8 at a one-file spec: the output for `./db/pack.go`
starts with the marker, declares package `db`, and then holds the single
scalar declaration. -/
theorem c8_output_layout_witness :
    packTarget zlibId [] [(chs "db/s.sql", FsNode.file (some [104]))] (chs "./db/pack.go")
        [(chs "Schema", chs "db/s.sql")]
      = .ok (strBytes "// Code generated by pack.go; DO NOT EDIT.\n\n"
          ++ (strBytes "package " ++ chBytes (baseName (dirName (chs "./db/pack.go")))
            ++ strBytes ("\n\nimport (\n\t\t\"bytes\"\n\t\t\"compress/zlib\"\n"
              ++ "\t\t\"encoding/base64\"\n\t\t\"io/ioutil\"\n\t)\n\n"
              ++ "var _, _, _, _ = zlib.BestSpeed, base64.NoPadding, ioutil.Discard, bytes.Join\n\n"))
          ++ (strBytes "var " ++ chBytes (chs "Schema") ++ strBytes " = "
              ++ encText (enc zlibId [104]) ++ strBytes "\n" ++ [])) := by
  apply c8_output_layout
  simp [packDecls, targetVarnames, List.mergeSort, packSymbol, statNode, File,
    List.lookup, chs, except_bind_ok]
